import Mathlib

/-!
Verification development for the provider-agnostic parsing and streaming
layer of the puzzlet repository (TypeScript sources under `src/lib`).

JavaScript runtime values manipulated by the code (settings bags, streamed
deltas, recorded outputs) are modelled by the inductive type `JSValue`
below: `undefined`, `null`, booleans, numbers, strings, arrays and plain
objects.  Numbers are modelled as integers, since none of the verified code
performs numeric arithmetic (numbers are only compared).  Objects are
association lists in property-insertion order, mirroring how JavaScript
enumerates own keys; a well-formedness predicate `WfJS` states that no
object level contains a duplicate key, which is automatic for real
JavaScript objects.

Strict equality `===` is modelled by `strictEq`: value equality on
primitives and `false` on two composite values, which is faithful whenever
the two compared trees do not alias each other (the functions under
verification compare values originating from distinct objects).
-/

inductive JSValue : Type where
  | undefined : JSValue
  | null : JSValue
  | bool : Bool → JSValue
  | num : Int → JSValue
  | str : String → JSValue
  | arr : List JSValue → JSValue
  | obj : List (String × JSValue) → JSValue
deriving Repr, Inhabited

namespace JSValue

mutual

/-- Size measure used for termination of the recursive JS-style functions. -/
def jsize : JSValue → Nat
  | .arr vs => 1 + jsizeList vs
  | .obj fs => 1 + jsizeFields fs
  | _ => 0

/-- Size of a list of array elements. -/
def jsizeList : List JSValue → Nat
  | [] => 0
  | v :: t => 1 + jsize v + jsizeList t

/-- Size of an object field list. -/
def jsizeFields : List (String × JSValue) → Nat
  | [] => 0
  | (_, v) :: t => 1 + jsize v + jsizeFields t

end

end JSValue

open JSValue

/-- JavaScript truthiness: `undefined`, `null`, `false`, `0` and `""` are
falsy; every other value (arrays and objects included) is truthy. -/
def truthy : JSValue → Bool
  | .undefined => false
  | .null => false
  | .bool b => b
  | .num n => n != 0
  | .str s => s != ""
  | .arr _ => true
  | .obj _ => true

/-- `x === y` under the no-aliasing reading: primitive equality on
primitives, `false` on composites (two distinct composite references). -/
def strictEq : JSValue → JSValue → Bool
  | .undefined, .undefined => true
  | .null, .null => true
  | .bool a, .bool b => a == b
  | .num a, .num b => a == b
  | .str a, .str b => a == b
  | _, _ => false

/-- `x?.constructor.name`: `none` for the nullish values (where the optional
chain yields `undefined`), otherwise the class name. -/
def constructorName : JSValue → Option String
  | .undefined => none
  | .null => none
  | .bool _ => some "Boolean"
  | .num _ => some "Number"
  | .str _ => some "String"
  | .arr _ => some "Array"
  | .obj _ => some "Object"

/-- `x === undefined || x === null`. -/
def isNullish : JSValue → Bool
  | .undefined => true
  | .null => true
  | _ => false

/-- First entry of an association list with the given key. -/
def lookupField (fields : List (String × JSValue)) (key : String) :
    Option JSValue :=
  match fields with
  | [] => none
  | (k, v) :: rest => if k == key then some v else lookupField rest key

/-- Property assignment `o[key] = v` on an object field list: replaces the
first entry carrying `key` in place, or appends a fresh entry, matching
JavaScript key-insertion order. -/
def setField (fields : List (String × JSValue)) (key : String)
    (value : JSValue) : List (String × JSValue) :=
  match fields with
  | [] => [(key, value)]
  | (k, v) :: rest =>
    if k == key then (k, value) :: rest
    else (k, v) :: setField rest key value

/-- Property read `o?.[key]`: `undefined` when the receiver is not an object
or lacks the key. -/
def jget (v : JSValue) (key : String) : JSValue :=
  match v with
  | .obj fields => (lookupField fields key).getD .undefined
  | _ => .undefined

/-- `o?.hasOwnProperty(key)` (on non-objects the calls under verification
never reach this true). -/
def hasProp (v : JSValue) (key : String) : Bool :=
  match v with
  | .obj fields => (lookupField fields key).isSome
  | _ => false

/-- `Object.keys` on an object field list. -/
def objKeys (fields : List (String × JSValue)) : List String :=
  fields.map Prod.fst

theorem lookupField_mem {fields : List (String × JSValue)} {key : String}
    {v : JSValue} (h : lookupField fields key = some v) :
    ∃ k, (k, v) ∈ fields := by
  induction fields with
  | nil => simp [lookupField] at h
  | cons f rest ih =>
    obtain ⟨k, w⟩ := f
    by_cases hk : k == key
    · simp [lookupField, hk] at h
      exact ⟨k, by simp [h]⟩
    · simp [lookupField, hk] at h
      obtain ⟨k2, hmem⟩ := ih h
      exact ⟨k2, List.mem_cons_of_mem _ hmem⟩

theorem jsize_lt_of_mem_fields {fields : List (String × JSValue)}
    {k : String} {v : JSValue} (h : (k, v) ∈ fields) :
    jsize v < jsizeFields fields := by
  induction fields with
  | nil => simp at h
  | cons f rest ih =>
    rcases List.mem_cons.mp h with heq | hmem
    · obtain ⟨w1, w2⟩ := f
      injection heq with h1 h2
      subst h2
      simp [jsizeFields]
      omega
    · have := ih hmem
      obtain ⟨w1, w2⟩ := f
      simp [jsizeFields]
      omega

theorem jsize_lookup_le {fields : List (String × JSValue)} {key : String}
    {v : JSValue} (h : lookupField fields key = some v) :
    jsize v < jsizeFields fields := by
  obtain ⟨k, hmem⟩ := lookupField_mem h
  exact jsize_lt_of_mem_fields hmem

theorem jsize_getD_lookup_le (fys : List (String × JSValue)) (k : String) :
    jsize ((lookupField fys k).getD .undefined) ≤ jsizeFields fys := by
  cases h : lookupField fys k with
  | none => simp [jsize]
  | some v => simpa using Nat.le_of_lt (jsize_lookup_le h)

mutual

/-- Deep equality `isEqual` from `src/lib/utils.ts`.  Note the object branch
compares the two key lists only by length, and only compares values when at
least one side is truthy: keys at which both values are falsy are skipped. -/
def isEqual (first second : JSValue) : Bool :=
  if strictEq first second then true
  else if (isNullish first || isNullish second)
      && (truthy first || truthy second) then false
  else if constructorName first != constructorName second then false
  else
    match first, second with
    | .arr xs, .arr ys =>
      if xs.length != ys.length then false else isEqualElems xs ys
    | .obj fxs, .obj fys =>
      if fxs.length != fys.length then false else isEqualFields fxs fys
    | _, _ => strictEq first second
termination_by jsize first + jsize second
decreasing_by
  all_goals simp [jsize, jsizeList, jsizeFields]; omega

/-- The element loop of `isEqual` on two arrays of equal length. -/
def isEqualElems (xs ys : List JSValue) : Bool :=
  match xs, ys with
  | x :: xt, y :: yt => isEqual x y && isEqualElems xt yt
  | _, _ => true
termination_by jsizeList xs + jsizeList ys
decreasing_by
  all_goals simp [jsize, jsizeList, jsizeFields]; omega

/-- The key loop of `isEqual` on two objects: iterates the first object's
entries and reads the corresponding property of the second. -/
def isEqualFields (fxs fys : List (String × JSValue)) : Bool :=
  match fxs with
  | [] => true
  | (k, fv) :: rest =>
    let sv := (lookupField fys k).getD .undefined
    if truthy fv && truthy sv then
      if strictEq fv sv then isEqualFields rest fys
      else if constructorName fv == some "Array"
          || constructorName fv == some "Object" then
        if isEqual fv sv then isEqualFields rest fys else false
      else false
    else if (truthy fv && !truthy sv) || (!truthy fv && truthy sv) then false
    else isEqualFields rest fys
termination_by jsizeFields fxs + jsizeFields fys
decreasing_by
  all_goals simp [jsize, jsizeList, jsizeFields]
  all_goals rename_i fk _ha _hb _hc
  all_goals (have hb := jsize_getD_lookup_le fys fk; omega)

end

/-- No two entries of one object level share a key (JavaScript objects
cannot carry duplicate keys, so this holds of every value the code sees). -/
def distinctKeys : List (String × JSValue) → Bool
  | [] => true
  | (k, _) :: t => t.all (fun p => p.1 != k) && distinctKeys t

mutual

/-- Well-formed JS value: every object level has pairwise distinct keys. -/
def wfJS : JSValue → Bool
  | .arr vs => wfJSList vs
  | .obj fs => distinctKeys fs && wfJSFields fs
  | _ => true

/-- Well-formedness of array elements. -/
def wfJSList : List JSValue → Bool
  | [] => true
  | v :: t => wfJS v && wfJSList t

/-- Well-formedness of object field values. -/
def wfJSFields : List (String × JSValue) → Bool
  | [] => true
  | (_, v) :: t => wfJS v && wfJSFields t

end

mutual

/-- The specification's deep structural equality (spec.md §4.1): primitives
by value, arrays pointwise in order, mappings by equal key sets with
pairwise-equal values (order-independent), everything else unequal. -/
def deepEqualSpec (x y : JSValue) : Bool :=
  match x, y with
  | .arr xs, .arr ys => xs.length == ys.length && deepEqualElems xs ys
  | .obj fxs, .obj fys =>
    deepEqualFieldsL fxs fys && fys.all (fun p => (lookupField fxs p.1).isSome)
  | a, b => strictEq a b
termination_by jsize x + jsize y
decreasing_by
  all_goals simp [jsize, jsizeList, jsizeFields]; omega

/-- Pointwise deep equality of array elements. -/
def deepEqualElems (xs ys : List JSValue) : Bool :=
  match xs, ys with
  | [], [] => true
  | x :: xt, y :: yt => deepEqualSpec x y && deepEqualElems xt yt
  | _, _ => false
termination_by jsizeList xs + jsizeList ys
decreasing_by
  all_goals simp [jsize, jsizeList, jsizeFields]; omega

/-- Every entry of the first object has a deep-equal value in the second. -/
def deepEqualFieldsL (fxs fys : List (String × JSValue)) : Bool :=
  match fxs with
  | [] => true
  | (k, v) :: rest =>
    (match hw : lookupField fys k with
     | some w => deepEqualSpec v w
     | none => false)
    && deepEqualFieldsL rest fys
termination_by jsizeFields fxs + jsizeFields fys
decreasing_by
  all_goals simp [jsize, jsizeList, jsizeFields]
  all_goals first
  | omega
  | (have hb := jsize_lookup_le hw; omega)

end

/-- `Object.entries` on an array: index keys `"0"`, `"1"`, … with the
elements as values. -/
def arrEntries (i : Nat) : List JSValue → List (String × JSValue)
  | [] => []
  | v :: t => (toString i, v) :: arrEntries (i + 1) t

/-- `Object.entries` on a string: index keys with one-character strings. -/
def strEntries (i : Nat) : List Char → List (String × JSValue)
  | [] => []
  | c :: t => (toString i, .str (String.singleton c)) :: strEntries (i + 1) t

/-- `Object.entries(x)`: the own enumerable entries of a value — an object's
fields, an array's or string's indexed elements, and nothing on the
remaining primitives. -/
def jsEntries : JSValue → List (String × JSValue)
  | .obj fs => fs
  | .arr vs => arrEntries 0 vs
  | .str s => strEntries 0 s.data
  | _ => []

theorem jsize_lt_of_mem_list {vs : List JSValue} {v : JSValue} (h : v ∈ vs) :
    jsize v < jsizeList vs := by
  induction vs with
  | nil => simp at h
  | cons w t ih =>
    rcases List.mem_cons.mp h with heq | hmem
    · subst heq; simp [jsizeList]; omega
    · have := ih hmem; simp [jsizeList]; omega

theorem arrEntries_mem {vs : List JSValue} {k : String} {v : JSValue} :
    ∀ {i : Nat}, (k, v) ∈ arrEntries i vs → v ∈ vs := by
  induction vs with
  | nil => intro i h; simp [arrEntries] at h
  | cons w t ih =>
    intro i h
    simp only [arrEntries, List.mem_cons] at h
    rcases h with heq | hmem
    · injection heq with h1 h2
      exact h2 ▸ List.mem_cons_self w t
    · exact List.mem_cons_of_mem _ (ih hmem)

theorem strEntries_shape {cs : List Char} {k : String} {v : JSValue} :
    ∀ {i : Nat}, (k, v) ∈ strEntries i cs → ∃ c, v = .str (String.singleton c) := by
  induction cs with
  | nil => intro i h; simp [strEntries] at h
  | cons c t ih =>
    intro i h
    simp only [strEntries, List.mem_cons] at h
    rcases h with heq | hmem
    · injection heq with h1 h2
      exact ⟨c, h2⟩
    · exact ih hmem

theorem jsize_lookup_entries_obj {w : JSValue} {k : String}
    {fs : List (String × JSValue)}
    (h : lookupField (jsEntries w) k = some (.obj fs)) :
    jsize (.obj fs) < jsize w := by
  obtain ⟨k2, hmem⟩ := lookupField_mem h
  cases w with
  | obj fields =>
    simp only [jsEntries] at hmem
    have := jsize_lt_of_mem_fields hmem
    simp only [jsize] at this ⊢
    omega
  | arr vs =>
    simp only [jsEntries] at hmem
    have := jsize_lt_of_mem_list (arrEntries_mem hmem)
    simp only [jsize] at this ⊢
    omega
  | str s =>
    simp only [jsEntries] at hmem
    obtain ⟨c, hc⟩ := strEntries_shape hmem
    simp at hc
  | undefined => simp [jsEntries] at hmem
  | null => simp [jsEntries] at hmem
  | bool b => simp [jsEntries] at hmem
  | num n => simp [jsEntries] at hmem

mutual

/-- The streaming deep-merge `reduce` of `src/lib/parsers/openai.ts`
(lines 871–883): copies the accumulator (`{...acc}` — so the result is
always a plain object), then for each entry of the delta: a nullish or
missing accumulator field adopts the incoming value; two strings
concatenate; a non-array object on the accumulator side is merged
recursively (whatever the incoming type); every other combination leaves
the accumulator's value unchanged — the loop has no overwrite branch. -/
def reduce (acc delta : JSValue) : JSValue :=
  .obj (reduceGo acc (jsEntries acc) (jsEntries delta))
termination_by (jsize acc, 1, 0)

/-- The entry loop of `reduce`.  `Object.entries` never yields a duplicate
key, so each branch test reads the original accumulator's field (`accOrig`);
updates land in the working copy `a`. -/
def reduceGo (accOrig : JSValue) (a es : List (String × JSValue)) :
    List (String × JSValue) :=
  match es with
  | [] => a
  | (k, v) :: rest =>
    let a2 :=
      match hl : lookupField (jsEntries accOrig) k with
      | none => setField a k v
      | some .undefined => setField a k v
      | some .null => setField a k v
      | some (.str s) =>
        match v with
        | .str t => setField a k (.str (s ++ t))
        | _ => a
      | some (.obj fs) => setField a k (reduce (.obj fs) v)
      | some _ => a
    reduceGo accOrig a2 rest
termination_by (jsize accOrig, 0, es.length)
decreasing_by
  all_goals simp_wf
  · exact Prod.Lex.left _ _ (jsize_lookup_entries_obj hl)
  · exact Prod.Lex.right _ (Prod.Lex.right _ (by omega))

end

/-- Property read with JavaScript semantics on a field list: `undefined`
when the key is absent. -/
def getProp (fields : List (String × JSValue)) (key : String) : JSValue :=
  (lookupField fields key).getD .undefined

/-- One `Set.add` step of `union` from `src/lib/utils.ts`: a JavaScript
`Set` keeps first-insertion order and ignores re-insertions. -/
def addToSet (acc : List String) (x : String) : List String :=
  if acc.contains x then acc else acc ++ [x]

/-- `union` from `src/lib/utils.ts` (lines 135–145), at the arity the diff
engine uses: all elements of both arrays, first occurrence first. -/
def union (a b : List String) : List String :=
  (a ++ b).foldl addToSet []

/-- `extractOverrideSettings` from `src/lib/utils.ts` (lines 15–47).
The runtime call `configRuntime.getGlobalSettings(modelName) ?? {}` is
modelled by the `globalSettings` argument (`AIConfigRuntime` lives outside
the verified sources); likewise `inferenceSettings ?? {}`.  After the
spread copy `globalModelSettings != null` is always true, so the override
branch is always taken: the result maps every key of either object at
which `isEqual` fails to the requested object's value (`undefined` when
the key is absent there).  `overrideStep` is the body of its `reduce`
callback. -/
def overrideStep (globalModelSettings settings : List (String × JSValue))
    (result : List (String × JSValue)) (key : String) :
    List (String × JSValue) :=
  if !isEqual (getProp globalModelSettings key) (getProp settings key) then
    setField result key (getProp settings key)
  else result

/-- See `overrideStep` above: the diff itself. -/
def extractOverrideSettings (globalSettings : Option (List (String × JSValue)))
    (inferenceSettings : Option (List (String × JSValue))) :
    List (String × JSValue) :=
  let globalModelSettings := globalSettings.getD []
  let settings := inferenceSettings.getD []
  let keys := union (objKeys globalModelSettings) (objKeys settings)
  keys.foldl (overrideStep globalModelSettings settings) []

/-- Layering one settings object over another, `{...g, ...d}`: `g`'s entries
in order with `d`'s assignments applied on top.  This is the "layering the
diff over G" step named by the spec's diff-minimality property. -/
def spreadMerge (g d : List (String × JSValue)) : List (String × JSValue) :=
  d.foldl (fun acc kv => setField acc kv.1 kv.2) g

theorem lookupField_setField_self (fs : List (String × JSValue))
    (k : String) (v : JSValue) : lookupField (setField fs k v) k = some v := by
  induction fs with
  | nil => simp [setField, lookupField]
  | cons f rest ih =>
    obtain ⟨k0, v0⟩ := f
    by_cases hk : k0 == k
    · simp [setField, hk, lookupField]
    · simp [setField, hk, lookupField, ih]

theorem lookupField_setField_other (fs : List (String × JSValue))
    (k k2 : String) (v : JSValue) (h : k2 ≠ k) :
    lookupField (setField fs k v) k2 = lookupField fs k2 := by
  induction fs with
  | nil =>
    simp [setField, lookupField]
    exact fun hh => h hh.symm
  | cons f rest ih =>
    obtain ⟨k0, v0⟩ := f
    by_cases hk : k0 == k
    · have hne : ¬(k0 == k2) := by
        simp at hk ⊢; exact fun hh => h (hh.symm.trans hk)
      simp [setField, hk, lookupField, hne]
    · by_cases hk2 : k0 == k2
      · simp [setField, hk, lookupField, hk2]
      · simp [setField, hk, lookupField, hk2, ih]

theorem objKeys_setField_mem (fs : List (String × JSValue)) (k : String)
    (v : JSValue) (h : k ∈ objKeys fs) :
    objKeys (setField fs k v) = objKeys fs := by
  induction fs with
  | nil => simp [objKeys] at h
  | cons f rest ih =>
    obtain ⟨k0, v0⟩ := f
    by_cases hk : k0 == k
    · simp [setField, hk, objKeys]
    · have hne : k0 ≠ k := by simpa using hk
      have hmem : k ∈ objKeys rest := by
        simp only [objKeys, List.map_cons, List.mem_cons] at h
        rcases h with heq | hmem
        · exact absurd heq.symm hne
        · exact hmem
      have htail := ih hmem
      simp only [objKeys] at htail
      simp [setField, hk, objKeys, htail]

theorem objKeys_setField_new (fs : List (String × JSValue)) (k : String)
    (v : JSValue) (h : k ∉ objKeys fs) :
    objKeys (setField fs k v) = objKeys fs ++ [k] := by
  induction fs with
  | nil => simp [setField, objKeys]
  | cons f rest ih =>
    obtain ⟨k0, v0⟩ := f
    simp only [objKeys, List.map_cons, List.mem_cons] at h
    push_neg at h
    have hk : ¬(k0 == k) := by simp; exact fun hh => h.1 hh.symm
    have hmem : k ∉ objKeys rest := h.2
    have htail := ih hmem
    simp only [objKeys] at htail
    simp [setField, hk, objKeys, htail]

theorem lookupField_eq_none {fs : List (String × JSValue)} {k : String}
    (h : k ∉ objKeys fs) : lookupField fs k = none := by
  induction fs with
  | nil => simp [lookupField]
  | cons f rest ih =>
    obtain ⟨k0, v0⟩ := f
    simp only [objKeys, List.map_cons, List.mem_cons] at h
    push_neg at h
    have hk : ¬(k0 == k) := by simp; exact fun hh => h.1 hh.symm
    simpa [lookupField, hk] using ih h.2

theorem lookupField_isSome_iff {fs : List (String × JSValue)} {k : String} :
    (lookupField fs k).isSome = true ↔ k ∈ objKeys fs := by
  induction fs with
  | nil => simp [lookupField, objKeys]
  | cons f rest ih =>
    obtain ⟨k0, v0⟩ := f
    by_cases hk : k0 == k
    · simp at hk
      simp [lookupField, hk, objKeys]
    · have hne : ¬(k = k0) := by
        simp at hk
        exact fun hh => hk hh.symm
      rw [show lookupField ((k0, v0) :: rest) k = lookupField rest k from by
        simp [lookupField, hk]]
      rw [ih]
      simp [objKeys, hne]

theorem lookupField_of_distinct_mem {fs : List (String × JSValue)}
    {k : String} {v : JSValue} (hd : distinctKeys fs = true)
    (h : (k, v) ∈ fs) : lookupField fs k = some v := by
  induction fs with
  | nil => simp at h
  | cons f rest ih =>
    obtain ⟨k0, v0⟩ := f
    simp only [distinctKeys, Bool.and_eq_true, List.all_eq_true] at hd
    rcases List.mem_cons.mp h with heq | hmem
    · injection heq with h1 h2
      subst h1; subst h2
      simp [lookupField]
    · have hne : k ≠ k0 := by
        have := hd.1 (k, v) hmem
        simpa using this
      have hk : ¬(k0 == k) := by simp; exact fun hh => hne hh.symm
      simp [lookupField, hk]
      exact ih hd.2 hmem

theorem wfJSFields_mem {fs : List (String × JSValue)} {k : String}
    {v : JSValue} (hw : wfJSFields fs = true) (h : (k, v) ∈ fs) :
    wfJS v = true := by
  induction fs with
  | nil => simp at h
  | cons f rest ih =>
    obtain ⟨k0, v0⟩ := f
    simp only [wfJSFields, Bool.and_eq_true] at hw
    rcases List.mem_cons.mp h with heq | hmem
    · injection heq with h1 h2; subst h2; exact hw.1
    · exact ih hw.2 hmem

theorem wfJSList_mem {vs : List JSValue} {v : JSValue}
    (hw : wfJSList vs = true) (h : v ∈ vs) : wfJS v = true := by
  induction vs with
  | nil => simp at h
  | cons w rest ih =>
    simp only [wfJSList, Bool.and_eq_true] at hw
    rcases List.mem_cons.mp h with heq | hmem
    · subst heq; exact hw.1
    · exact ih hw.2 hmem

theorem wfJS_getProp {fs : List (String × JSValue)} (k : String)
    (hw : wfJS (.obj fs) = true) : wfJS (getProp fs k) = true := by
  simp only [wfJS, Bool.and_eq_true] at hw
  unfold getProp
  cases h : lookupField fs k with
  | none => simp [wfJS]
  | some v =>
    obtain ⟨k2, hmem⟩ := lookupField_mem h
    simpa using wfJSFields_mem hw.2 hmem

theorem strictEq_self_or_composite (v : JSValue) :
    strictEq v v = true
    ∨ (constructorName v == some "Array" || constructorName v == some "Object")
        = true := by
  cases v <;> simp [strictEq, constructorName]

theorem isEqualElems_diag {vs : List JSValue}
    (h : ∀ x ∈ vs, isEqual x x = true) : isEqualElems vs vs = true := by
  induction vs with
  | nil => simp [isEqualElems]
  | cons x t ih =>
    simp only [isEqualElems, Bool.and_eq_true]
    exact ⟨h x (List.mem_cons_self x t),
      ih (fun y hy => h y (List.mem_cons_of_mem _ hy))⟩

theorem isEqualFields_diag {fs : List (String × JSValue)}
    (hd : distinctKeys fs = true)
    (hv : ∀ p ∈ fs, isEqual p.2 p.2 = true) :
    ∀ l, (∀ p ∈ l, p ∈ fs) → isEqualFields l fs = true := by
  intro l hl
  induction l with
  | nil => simp [isEqualFields]
  | cons p rest ih =>
    obtain ⟨k, fv⟩ := p
    have hmem : (k, fv) ∈ fs := hl _ (List.mem_cons_self _ _)
    have hlk : lookupField fs k = some fv := lookupField_of_distinct_mem hd hmem
    have hrest : isEqualFields rest fs = true :=
      ih (fun q hq => hl q (List.mem_cons_of_mem _ hq))
    simp only [isEqualFields, hlk, Option.getD_some]
    by_cases ht : truthy fv
    · by_cases hse : strictEq fv fv
      · simp [ht, hse, hrest]
      · rcases strictEq_self_or_composite fv with hse2 | hc
        · exact absurd hse2 hse
        · simp [ht, hse, hc, hv (k, fv) hmem, hrest]
    · simp [ht, hrest]

theorem isEqualReflAux :
    ∀ (n : Nat) (v : JSValue), jsize v ≤ n → wfJS v = true →
      isEqual v v = true := by
  intro n
  induction n with
  | zero =>
    intro v hle hw
    cases v with
    | undefined => simp [isEqual, strictEq]
    | null => simp [isEqual, strictEq]
    | bool b => simp [isEqual, strictEq]
    | num m => simp [isEqual, strictEq]
    | str s => simp [isEqual, strictEq]
    | arr vs => simp [jsize] at hle
    | obj fs => simp [jsize] at hle
  | succ n ih =>
    intro v hle hw
    cases v with
    | undefined => simp [isEqual, strictEq]
    | null => simp [isEqual, strictEq]
    | bool b => simp [isEqual, strictEq]
    | num m => simp [isEqual, strictEq]
    | str s => simp [isEqual, strictEq]
    | arr vs =>
      have helem : ∀ x ∈ vs, isEqual x x = true := by
        intro x hx
        apply ih
        · have h1 := jsize_lt_of_mem_list hx
          simp only [jsize] at hle
          omega
        · exact wfJSList_mem (by simpa [wfJS] using hw) hx
      have hall := isEqualElems_diag helem
      simp [isEqual, strictEq, isNullish, truthy, constructorName, hall]
    | obj fs =>
      simp only [wfJS, Bool.and_eq_true] at hw
      have hvals : ∀ p ∈ fs, isEqual p.2 p.2 = true := by
        intro p hp
        obtain ⟨k, pv⟩ := p
        apply ih
        · show jsize pv ≤ n
          have h1 := jsize_lt_of_mem_fields hp
          simp only [jsize] at hle
          omega
        · exact wfJSFields_mem hw.2 hp
      have hall := isEqualFields_diag hw.1 hvals fs (fun q hq => hq)
      simp [isEqual, strictEq, isNullish, truthy, constructorName, hall]

theorem isEqual_refl {v : JSValue} (hw : wfJS v = true) :
    isEqual v v = true :=
  isEqualReflAux (jsize v) v (Nat.le_refl _) hw

theorem mem_foldl_addToSet :
    ∀ (xs acc : List String) (k : String),
      k ∈ xs.foldl addToSet acc ↔ k ∈ acc ∨ k ∈ xs := by
  intro xs
  induction xs with
  | nil => intro acc k; simp
  | cons x t ih =>
    intro acc k
    simp only [List.foldl_cons]
    rw [ih]
    by_cases hx : x ∈ acc
    · rw [show addToSet acc x = acc from by simp [addToSet, hx]]
      simp only [List.mem_cons]
      constructor
      · rintro (h | h)
        · exact Or.inl h
        · exact Or.inr (Or.inr h)
      · rintro (h | h | h)
        · exact Or.inl h
        · exact Or.inl (h ▸ hx)
        · exact Or.inr h
    · rw [show addToSet acc x = acc ++ [x] from by simp [addToSet, hx]]
      simp only [List.mem_append, List.mem_cons, List.mem_singleton,
        List.not_mem_nil, or_false]
      constructor
      · rintro ((h | h) | h)
        · exact Or.inl h
        · exact Or.inr (Or.inl h)
        · exact Or.inr (Or.inr h)
      · rintro (h | h | h)
        · exact Or.inl (Or.inl h)
        · exact Or.inl (Or.inr h)
        · exact Or.inr h

theorem nodup_foldl_addToSet :
    ∀ (xs acc : List String), acc.Nodup → (xs.foldl addToSet acc).Nodup := by
  intro xs
  induction xs with
  | nil => intro acc h; simpa using h
  | cons x t ih =>
    intro acc h
    simp only [List.foldl_cons]
    apply ih
    by_cases hx : x ∈ acc
    · rw [show addToSet acc x = acc from by simp [addToSet, hx]]
      exact h
    · rw [show addToSet acc x = acc ++ [x] from by simp [addToSet, hx]]
      simp [List.nodup_append, h, hx]

theorem mem_union (a b : List String) (k : String) :
    k ∈ union a b ↔ k ∈ a ∨ k ∈ b := by
  unfold union
  rw [mem_foldl_addToSet]
  simp

theorem union_nodup (a b : List String) : (union a b).Nodup :=
  nodup_foldl_addToSet _ _ (by simp)

theorem lookupField_overrideFold (g s : List (String × JSValue)) (k2 : String) :
    ∀ (keys : List String) (init : List (String × JSValue)),
      lookupField (keys.foldl (overrideStep g s) init) k2 =
        if k2 ∈ keys ∧ isEqual (getProp g k2) (getProp s k2) = false
        then some (getProp s k2) else lookupField init k2 := by
  intro keys
  induction keys with
  | nil => intro init; simp
  | cons k t ih =>
    intro init
    simp only [List.foldl_cons]
    rw [ih]
    by_cases hk : k2 = k
    · subst hk
      by_cases hc : isEqual (getProp g k2) (getProp s k2) = false
      · by_cases hmem : k2 ∈ t
        · simp [hmem, hc]
        · simp [hmem, hc, overrideStep, lookupField_setField_self]
      · have ht : isEqual (getProp g k2) (getProp s k2) = true :=
          eq_true_of_ne_false hc
        simp [hc, overrideStep, ht]
    · have hstep :
          lookupField (overrideStep g s init k) k2 = lookupField init k2 := by
        unfold overrideStep
        by_cases hcc : isEqual (getProp g k) (getProp s k) = false
        · simp [hcc, lookupField_setField_other _ _ _ _ hk]
        · have ht : isEqual (getProp g k) (getProp s k) = true :=
            eq_true_of_ne_false hcc
          simp [ht]
      rw [hstep]
      simp [List.mem_cons, hk]

theorem objKeys_overrideFold (g s : List (String × JSValue)) :
    ∀ (keys : List String) (init : List (String × JSValue)), keys.Nodup →
      (∀ k ∈ keys, k ∉ objKeys init) →
      objKeys (keys.foldl (overrideStep g s) init) =
        objKeys init
          ++ keys.filter (fun k => !isEqual (getProp g k) (getProp s k)) := by
  intro keys
  induction keys with
  | nil => intro init h1 h2; simp
  | cons k t ih =>
    intro init hnd hnew
    have hkinit : k ∉ objKeys init := hnew k (List.mem_cons_self _ _)
    have hndt : t.Nodup := (List.nodup_cons.mp hnd).2
    have hknott : k ∉ t := (List.nodup_cons.mp hnd).1
    simp only [List.foldl_cons, List.filter_cons]
    by_cases hc : isEqual (getProp g k) (getProp s k) = false
    · have hstep : overrideStep g s init k = setField init k (getProp s k) := by
        simp [overrideStep, hc]
      have hkeys : objKeys (setField init k (getProp s k))
          = objKeys init ++ [k] := objKeys_setField_new _ _ _ hkinit
      have hnew2 : ∀ k2 ∈ t, k2 ∉ objKeys (setField init k (getProp s k)) := by
        intro k2 hk2
        rw [hkeys]
        simp only [List.mem_append, List.mem_singleton]
        push_neg
        exact ⟨hnew k2 (List.mem_cons_of_mem _ hk2),
          fun hh => hknott (hh ▸ hk2)⟩
      rw [hstep, ih _ hndt hnew2, hkeys]
      simp [hc, List.append_assoc]
    · have ht : isEqual (getProp g k) (getProp s k) = true :=
        eq_true_of_ne_false hc
      have hstep : overrideStep g s init k = init := by
        simp [overrideStep, ht]
      rw [hstep, ih _ hndt (fun k2 hk2 => hnew k2 (List.mem_cons_of_mem _ hk2))]
      simp [ht]

theorem lookupField_spreadMerge :
    ∀ (d g : List (String × JSValue)) (k : String), (objKeys d).Nodup →
      lookupField (spreadMerge g d) k =
        if (lookupField d k).isSome then lookupField d k
        else lookupField g k := by
  intro d
  induction d with
  | nil => intro g k h; simp [spreadMerge, lookupField]
  | cons f rest ih =>
    intro g k hnd
    obtain ⟨k0, v0⟩ := f
    have hnd0 := hnd
    simp only [objKeys, List.map_cons, List.nodup_cons] at hnd0
    have hnd2 : (objKeys rest).Nodup := hnd0.2
    have hk0not : k0 ∉ objKeys rest := hnd0.1
    simp only [spreadMerge, List.foldl_cons]
    rw [show rest.foldl (fun acc kv => setField acc kv.1 kv.2)
        (setField g k0 v0) = spreadMerge (setField g k0 v0) rest from rfl]
    rw [ih _ k hnd2]
    by_cases hk : k = k0
    · subst hk
      have hnone : lookupField rest k = none := lookupField_eq_none hk0not
      simp [hnone, lookupField, lookupField_setField_self]
    · have hkk : ¬(k0 == k) := by simp; exact fun hh => hk hh.symm
      simp [lookupField, hkk, lookupField_setField_other _ _ _ _ hk]

theorem deepEqual_truthy {a b : JSValue} (h : deepEqualSpec a b = true) :
    truthy a = truthy b := by
  cases a <;> cases b <;> simp_all [deepEqualSpec, strictEq, truthy]

theorem deepEqualFieldsL_isSome {fys : List (String × JSValue)} :
    ∀ (l : List (String × JSValue)), deepEqualFieldsL l fys = true →
      ∀ p ∈ l, (lookupField fys p.1).isSome = true := by
  intro l
  induction l with
  | nil => intro h p hp; simp at hp
  | cons q rest ih =>
    intro h p hp
    obtain ⟨k, v⟩ := q
    simp only [deepEqualFieldsL, Bool.and_eq_true] at h
    rcases List.mem_cons.mp hp with heq | hmem
    · subst heq
      cases hw : lookupField fys k with
      | none => rw [hw] at h; simp at h
      | some w => simp [hw]
    · exact ih h.2 p hmem

theorem distinctKeys_nodup {fs : List (String × JSValue)} :
    distinctKeys fs = true ↔ (objKeys fs).Nodup := by
  induction fs with
  | nil => simp [distinctKeys, objKeys]
  | cons f t ih =>
    obtain ⟨k, v⟩ := f
    simp only [distinctKeys, Bool.and_eq_true, List.all_eq_true, objKeys,
      List.map_cons, List.nodup_cons] at ih ⊢
    constructor
    · rintro ⟨h1, h2⟩
      refine ⟨?_, ih.mp h2⟩
      intro hk
      obtain ⟨p, hp, hpk⟩ := List.mem_map.mp hk
      have := h1 p hp
      simp [hpk] at this
    · rintro ⟨h1, h2⟩
      refine ⟨?_, ih.mpr h2⟩
      intro p hp
      simp only [bne_iff_ne, ne_eq]
      exact fun hh => h1 (hh ▸ List.mem_map_of_mem Prod.fst hp)

theorem keys_length_eq {fxs fys : List (String × JSValue)}
    (hx : (objKeys fxs).Nodup) (hy : (objKeys fys).Nodup)
    (h1 : objKeys fxs ⊆ objKeys fys) (h2 : objKeys fys ⊆ objKeys fxs) :
    fxs.length = fys.length := by
  have l1 := (hx.subperm h1).length_le
  have l2 := (hy.subperm h2).length_le
  simp only [objKeys, List.length_map] at l1 l2
  omega

theorem deepEqualSpec_prim_strictEq {x y : JSValue}
    (h : deepEqualSpec x y = true) (h1 : constructorName x ≠ some "Array")
    (h2 : constructorName x ≠ some "Object") : strictEq x y = true := by
  cases x <;> cases y <;> simp_all [deepEqualSpec, constructorName]

theorem deepEqualSoundAux :
    ∀ (n : Nat) (x y : JSValue), jsize x + jsize y ≤ n →
      wfJS x = true → wfJS y = true → deepEqualSpec x y = true →
      isEqual x y = true := by
  intro n
  induction n with
  | zero =>
    intro x y hle hwx hwy hde
    cases x <;> cases y <;> simp_all [deepEqualSpec, jsize, isEqual, strictEq]
  | succ n ih =>
    intro x y hle hwx hwy hde
    cases x with
    | undefined => cases y <;> simp_all [deepEqualSpec, isEqual, strictEq]
    | null => cases y <;> simp_all [deepEqualSpec, isEqual, strictEq]
    | bool b => cases y <;> simp_all [deepEqualSpec, isEqual, strictEq]
    | num m => cases y <;> simp_all [deepEqualSpec, isEqual, strictEq]
    | str s => cases y <;> simp_all [deepEqualSpec, isEqual, strictEq]
    | arr xs =>
      cases y with
      | arr ys =>
        simp only [deepEqualSpec, Bool.and_eq_true, beq_iff_eq] at hde
        obtain ⟨hlen, helems⟩ := hde
        simp only [jsize] at hle
        simp only [wfJS] at hwx hwy
        have harr : ∀ (as bs : List JSValue),
            jsizeList as ≤ jsizeList xs → jsizeList bs ≤ jsizeList ys →
            wfJSList as = true → wfJSList bs = true →
            deepEqualElems as bs = true → isEqualElems as bs = true := by
          intro as
          induction as with
          | nil =>
            intro bs _ _ _ _ hd
            cases bs with
            | nil => simp [isEqualElems]
            | cons b bt => simp [deepEqualElems] at hd
          | cons a at2 iha =>
            intro bs h1 h2 hw1 hw2 hd
            cases bs with
            | nil => simp [deepEqualElems] at hd
            | cons b bt =>
              simp only [deepEqualElems, Bool.and_eq_true] at hd
              simp only [jsizeList] at h1 h2
              simp only [wfJSList, Bool.and_eq_true] at hw1 hw2
              simp only [isEqualElems, Bool.and_eq_true]
              refine ⟨?_, ?_⟩
              · exact ih a b (by omega) hw1.1 hw2.1 hd.1
              · exact iha bt (by omega) (by omega) hw1.2 hw2.2 hd.2
        have hall := harr xs ys (Nat.le_refl _) (Nat.le_refl _) hwx hwy helems
        simp [isEqual, strictEq, isNullish, truthy, constructorName, hlen, hall]
      | undefined => simp [deepEqualSpec, strictEq] at hde
      | null => simp [deepEqualSpec, strictEq] at hde
      | bool b => simp [deepEqualSpec, strictEq] at hde
      | num m => simp [deepEqualSpec, strictEq] at hde
      | str s => simp [deepEqualSpec, strictEq] at hde
      | obj fys => simp [deepEqualSpec, strictEq] at hde
    | obj fxs =>
      cases y with
      | obj fys =>
        simp only [deepEqualSpec, Bool.and_eq_true] at hde
        obtain ⟨hdl, hkeys2⟩ := hde
        simp only [jsize] at hle
        simp only [wfJS, Bool.and_eq_true] at hwx hwy
        have hsub1 : objKeys fxs ⊆ objKeys fys := by
          intro k hk
          obtain ⟨p, hp, hpk⟩ := List.mem_map.mp hk
          have := deepEqualFieldsL_isSome fxs hdl p hp
          rw [lookupField_isSome_iff] at this
          exact hpk ▸ this
        have hsub2 : objKeys fys ⊆ objKeys fxs := by
          intro k hk
          obtain ⟨p, hp, hpk⟩ := List.mem_map.mp hk
          simp only [List.all_eq_true] at hkeys2
          have := hkeys2 p hp
          rw [lookupField_isSome_iff] at this
          exact hpk ▸ this
        have hlen : fxs.length = fys.length :=
          keys_length_eq (distinctKeys_nodup.mp hwx.1)
            (distinctKeys_nodup.mp hwy.1) hsub1 hsub2
        have hfields : ∀ (l : List (String × JSValue)),
            (∀ p ∈ l, p ∈ fxs) → deepEqualFieldsL l fys = true →
            isEqualFields l fys = true := by
          intro l
          induction l with
          | nil => intro _ _; simp [isEqualFields]
          | cons p rest ihl =>
            intro hsub hdl2
            obtain ⟨k, fv⟩ := p
            simp only [deepEqualFieldsL, Bool.and_eq_true] at hdl2
            obtain ⟨hdk, hdrest⟩ := hdl2
            have hrest := ihl (fun q hq => hsub q (List.mem_cons_of_mem _ hq))
              hdrest
            cases hw : lookupField fys k with
            | none => rw [hw] at hdk; simp at hdk
            | some sv =>
              rw [hw] at hdk
              have hmemx : (k, fv) ∈ fxs := hsub _ (List.mem_cons_self _ _)
              have hsz : jsize fv + jsize sv ≤ n := by
                have s1 := jsize_lt_of_mem_fields hmemx
                have s2 := jsize_lookup_le hw
                omega
              have hwfv : wfJS fv = true := wfJSFields_mem hwx.2 hmemx
              have hwsv : wfJS sv = true := by
                obtain ⟨k2, hm⟩ := lookupField_mem hw
                exact wfJSFields_mem hwy.2 hm
              have hrec : isEqual fv sv = true := ih fv sv hsz hwfv hwsv hdk
              have htr : truthy fv = truthy sv := deepEqual_truthy hdk
              simp only [isEqualFields, hw, Option.getD_some]
              by_cases ht : truthy fv = true
              · have hts : truthy sv = true := htr ▸ ht
                by_cases hse : strictEq fv sv = true
                · simp [ht, hts, hse, hrest]
                · have hcomp : (constructorName fv == some "Array"
                      || constructorName fv == some "Object") = true := by
                    by_cases hfc : (constructorName fv == some "Array"
                        || constructorName fv == some "Object") = true
                    · exact hfc
                    · exfalso
                      apply hse
                      apply deepEqualSpec_prim_strictEq hdk
                      · intro hh; apply hfc; simp [hh]
                      · intro hh; apply hfc; simp [hh]
                  simp [ht, hts, hse, hcomp, hrec, hrest]
              · have htf : truthy fv = false := by simpa using ht
                have hts : truthy sv = false := htr ▸ htf
                simp [htf, hts, hrest]
        have hfl := hfields fxs (fun q hq => hq) hdl
        simp [isEqual, strictEq, isNullish, truthy, constructorName, hlen, hfl]
      | undefined => simp [deepEqualSpec, strictEq] at hde
      | null => simp [deepEqualSpec, strictEq] at hde
      | bool b => simp [deepEqualSpec, strictEq] at hde
      | num m => simp [deepEqualSpec, strictEq] at hde
      | str s => simp [deepEqualSpec, strictEq] at hde
      | arr ys => simp [deepEqualSpec, strictEq] at hde

theorem deepEqual_implies_isEqual {x y : JSValue} (hwx : wfJS x = true)
    (hwy : wfJS y = true) (hde : deepEqualSpec x y = true) :
    isEqual x y = true :=
  deepEqualSoundAux (jsize x + jsize y) x y (Nat.le_refl _) hwx hwy hde

/-- Read of a JavaScript `Map` keyed by choice index. -/
def natMapGet {α : Type} (m : List (Nat × α)) (i : Nat) : Option α :=
  match m with
  | [] => none
  | (j, v) :: rest => if j == i then some v else natMapGet rest i

/-- `Map.set`: replaces the value at an existing key, else appends — a
JavaScript `Map` iterates in key-insertion order. -/
def natMapSet {α : Type} (m : List (Nat × α)) (i : Nat) (v : α) :
    List (Nat × α) :=
  match m with
  | [] => [(i, v)]
  | (j, w) :: rest =>
    if j == i then (j, v) :: rest else (j, w) :: natMapSet rest i v

/-- `Array.from(map.values())`. -/
def natMapValues {α : Type} (m : List (Nat × α)) : List α := m.map Prod.snd

/-- One choice of a streamed chat-completion chunk. -/
structure ChatChunkChoice where
  index : Nat
  delta : JSValue
  finish_reason : JSValue := .null
deriving Repr

/-- A streamed chat-completion fragment. -/
structure ChatCompletionChunk where
  choices : List ChatChunkChoice
deriving Repr

/-- The per-chunk loop body of `multiChoiceMessageReducer`: each choice's
delta is deep-merged into that index's partial message (`previousMessage ??
[]` — a fresh empty array on the first fragment for an index). -/
def applyChoices (m : List (Nat × JSValue)) (choices : List ChatChunkChoice) :
    List (Nat × JSValue) :=
  choices.foldl
    (fun m choice =>
      natMapSet m choice.index
        (reduce ((natMapGet m choice.index).getD (.arr [])) choice.delta))
    m

/-- `multiChoiceMessageReducer` from `src/lib/parsers/openai.ts`
(lines 885–908): on the first fragment the accumulator map is created
empty; afterwards a fragment whose choice count differs from the map's
size raises the protocol error (modelled as `Except.error`). -/
def multiChoiceMessageReducer (messages : Option (List (Nat × JSValue)))
    (chunk : ChatCompletionChunk) :
    Except String (List (Nat × JSValue)) :=
  match messages with
  | none => .ok (applyChoices [] chunk.choices)
  | some m =>
    if m.length != chunk.choices.length then
      .error
        "Invalid number of previous choices -- it should match the incoming number of choices"
    else .ok (applyChoices m chunk.choices)

/-- A prompt's input: the template string, or a message-shaped object. -/
inductive PromptInput where
  | text : String → PromptInput
  | jobj : JSValue → PromptInput
deriving Repr

/-- A recorded Output (`ExecuteResult`): `data` holds a string, an
`OutputDataWithValue`, or a legacy raw message, all JS values. -/
structure Output where
  output_type : String
  data : JSValue
  execution_count : Option Nat := none
  metadata : JSValue := .obj []
deriving Repr

/-- A Prompt as the chat parser consumes it: name, input, the metadata
fields the verified code reads, and its recorded outputs (`[]` models an
absent `outputs` array). -/
structure Prompt where
  name : String
  input : PromptInput
  rememberChatContext : Option Bool := none
  modelMetadata : JSValue := .undefined
  parameters : JSValue := .undefined
  outputs : List Output := []
deriving Repr

/-- Modelled from the spec: `AIConfigRuntime.getLatestOutput` (the runtime
class `config.ts` is not among the sources).  Outputs are an ordered
sequence and the latest is the most recently appended, so the last
element. -/
def getLatestOutput (p : Prompt) : Option Output := p.outputs.getLast?

/-- `OpenAIChatModelParser.getPromptTemplate` (lines 305–314): the input
string, else its string `data`, else the message's `content ?? ""`
(non-string contents sit outside the declared interface and yield ""). -/
def getPromptTemplate (p : Prompt) : String :=
  match p.input with
  | .text s => s
  | .jobj v =>
    match jget v "data" with
    | .str s => s
    | _ =>
      match jget v "content" with
      | .str s => s
      | _ => ""

/-- The external TemplateResolver (spec §6): `resolvePromptTemplate` is not
among the verified sources; it is a pure function of the template and the
prompt being resolved — the document and params of one deserialize call are
fixed and absorbed into the closure. -/
def TemplateResolver : Type := String → Prompt → String

/-- `value[value.length - 1]` on a JS array (the reachable calls always
pass a non-empty array). -/
def jlastElem : JSValue → JSValue
  | .arr vs => (vs.getLast?).getD .undefined
  | _ => .undefined

/-- Property write `o[key] = v` (a no-op on non-objects, which the
verified flows never exercise). -/
def jsetProp (v : JSValue) (key : String) (value : JSValue) : JSValue :=
  match v with
  | .obj fs => .obj (setField fs key value)
  | other => other

/-- The assistant message pushed by `addPromptAsMessage` (lines 744–773):
content from string data or a string `value`; a `function_call` carried
over from the last entry of a `tool_calls` value; `name` from the output
metadata (falling back to the raw response), included only when
non-nullish, as is the function call. -/
def assistantMessageFromOutput (output : Output) : JSValue :=
  let d := output.data
  let content : JSValue :=
    match d with
    | .str s => .str s
    | _ =>
      if hasProp d "value" then
        match jget d "value" with
        | .str s => .str s
        | _ => .null
      else .null
  let functionCall : JSValue :=
    match d with
    | .str _ => .undefined
    | _ =>
      if hasProp d "value" then
        match jget d "value" with
        | .str _ => .undefined
        | v =>
          if strictEq (jget d "kind") (.str "tool_calls") then
            jget (jlastElem v) "function"
          else .undefined
      else .undefined
  let nameVal : JSValue :=
    if isNullish (jget output.metadata "name") then
      jget (jget output.metadata "raw_response") "name"
    else jget output.metadata "name"
  .obj ([("content", content), ("role", .str "assistant")]
    ++ (if isNullish functionCall then [] else [("function_call", functionCall)])
    ++ (if isNullish nameVal then [] else [("name", nameVal)]))

/-- `OpenAIChatModelParser.addPromptAsMessage` (lines 707–792): appends the
prompt's resolved user (or role-qualified) turn, then — when the prompt's
latest output is an execute result attributable to the assistant — an
assistant turn, or a legacy raw message passed through unchanged. -/
def addPromptAsMessage (resolver : TemplateResolver) (prompt : Prompt)
    (messages : List JSValue) : List JSValue :=
  let resolvedPrompt := resolver (getPromptTemplate prompt) prompt
  let userMessage : JSValue :=
    match prompt.input with
    | .text _ => .obj [("content", .str resolvedPrompt), ("role", .str "user")]
    | .jobj v =>
      .obj [("content", .str resolvedPrompt),
        ("role", if isNullish (jget v "role") then .str "user"
          else jget v "role"),
        ("function_call", jget v "function_call"),
        ("name", jget v "name")]
  let messages2 := messages ++ [userMessage]
  match getLatestOutput prompt with
  | none => messages2
  | some output =>
    if output.output_type == "execute_result" then
      let roleMeta := jget output.metadata "role"
      let isAssistant : Bool :=
        if isNullish roleMeta then
          strictEq (jget (jget output.metadata "raw_response") "role")
            (.str "assistant")
        else truthy roleMeta
      if isAssistant then messages2 ++ [assistantMessageFromOutput output]
      else if hasProp output.data "content" && hasProp output.data "role" then
        if strictEq (jget output.data "role") (.str "assistant") then
          messages2 ++ [output.data]
        else messages2
      else messages2
    else messages2

/-- The system turn of `OpenAIChatModelParser.deserialize` (lines 469–485):
a string `system_prompt` becomes `{content, role: "system"}`, an
object-shaped one is used as is; its content template is resolved against
the target prompt. -/
def systemMessages (resolver : TemplateResolver) (modelMetadata : JSValue)
    (prompt : Prompt) : List JSValue :=
  let sys := jget modelMetadata "system_prompt"
  if isNullish sys then []
  else
    let systemPrompt : JSValue :=
      match sys with
      | .str s => .obj [("content", .str s), ("role", .str "system")]
      | v => v
    let contentTemplate : String :=
      match jget systemPrompt "content" with
      | .str s => s
      | _ => ""
    [jsetProp systemPrompt "content"
      (.str (resolver contentTemplate prompt))]

/-- The history walk of `OpenAIChatModelParser.deserialize` (lines
487–498): every document prompt is added in order; the loop breaks right
after the prompt whose name equals the target's. -/
def buildChatHistory (resolver : TemplateResolver) (prompts : List Prompt)
    (target : Prompt) (messages : List JSValue) : List JSValue :=
  match prompts with
  | [] => messages
  | p :: rest =>
    let messages2 := addPromptAsMessage resolver p messages
    if p.name == target.name then messages2
    else buildChatHistory resolver rest target messages2

/-- The message-building branch of `OpenAIChatModelParser.deserialize`
(lines 465–501, taken when the settings carry no `messages`): optional
system turn, then the history walk — unless the target prompt declares
`remember_chat_context === false`, in which case only the target itself is
added. -/
def deserializeMessages (resolver : TemplateResolver) (modelMetadata : JSValue)
    (prompts : List Prompt) (target : Prompt) : List JSValue :=
  let messages := systemMessages resolver modelMetadata target
  if target.rememberChatContext != some false then
    buildChatHistory resolver prompts target messages
  else
    addPromptAsMessage resolver target messages

/-- The document's prompt list up to and including the first prompt with
the given name (the whole list when the name never occurs). -/
def takeThroughName (prompts : List Prompt) (name : String) : List Prompt :=
  match prompts with
  | [] => []
  | p :: rest =>
    if p.name == name then [p] else p :: takeThroughName rest name

mutual

/-- `JSON.stringify` at the call sites of `getOutputText` (string escaping
elided — no verified property depends on the exact encoding). -/
def jsonStringify : JSValue → String
  | .undefined => "null"
  | .null => "null"
  | .bool b => if b then "true" else "false"
  | .num n => toString n
  | .str s => "\"" ++ s ++ "\""
  | .arr vs => "[" ++ String.intercalate "," (jsonStringifyList vs) ++ "]"
  | .obj fs => "\x7b" ++ String.intercalate "," (jsonStringifyFields fs) ++ "\x7d"

/-- Encoded array elements. -/
def jsonStringifyList : List JSValue → List String
  | [] => []
  | v :: t => jsonStringify v :: jsonStringifyList t

/-- Encoded object fields. -/
def jsonStringifyFields : List (String × JSValue) → List String
  | [] => []
  | (k, v) :: t => ("\"" ++ k ++ "\":" ++ jsonStringify v) :: jsonStringifyFields t

end

/-- `OpenAIModelParser.getOutputText` (lines 251–293; the chat parser's
copy at 664–705 is character-identical): explicit string data, else a
`value` payload (string, or JSON-encoded tool calls), else the legacy raw
message's content or function call, else the empty string.  Non-string
values returned where the interface declares a string yield "". -/
def getOutputText (output : Option Output) (prompt : Option Prompt) : String :=
  let output :=
    match output, prompt with
    | none, some p => getLatestOutput p
    | o, _ => o
  match output with
  | none => ""
  | some o =>
    if o.output_type == "execute_result" then
      match o.data with
      | .str s => s
      | d =>
        if hasProp d "value" then
          match jget d "value" with
          | .str s => s
          | v => jsonStringify v
        else if hasProp d "content" && hasProp d "role" then
          let c := jget d "content"
          if !isNullish c then
            match c with
            | .str s => s
            | _ => ""
          else if truthy (jget d "function_call") then
            jsonStringify (jget d "function_call")
          else ""
        else ""
    else ""

/-- One choice of a streamed text-completion chunk. -/
structure CompletionChoice where
  index : Nat
  text : String
  finish_reason : JSValue := .null
  logprobs : JSValue := .null
deriving Repr

/-- A streamed text-completion fragment; `extra` is what
`omit(chunk, "choices")` keeps for the output metadata. -/
structure CompletionChunk where
  choices : List CompletionChoice
  extra : List (String × JSValue) := []
deriving Repr

/-- The transient state of the streaming branch of `OpenAIModelParser.run`:
the per-choice accumulated completions and outputs (both JS Maps keyed by
choice index) and the recorded `streamCallback(data, accumulatedData,
index)` invocations in call order. -/
structure TextStreamState where
  completions : List (Nat × String)
  outputs : List (Nat × Output)
  callbackLog : List (String × String × Nat)
deriving Repr

/-- One fragment of the streaming branch of `OpenAIModelParser.run`
(lines 214–243): per choice, extend that index's accumulated text with the
chunk's `text`, fire the stream callback with the delta and the
accumulation, and overwrite that index's output record with the
accumulated text as its data. -/
def runTextStreamStep (st : TextStreamState) (chunk : CompletionChunk) :
    TextStreamState :=
  chunk.choices.foldl
    (fun st choice =>
      let completionText := natMapGet st.completions choice.index
      let accumulatedText := (completionText.getD "") ++ choice.text
      let output : Output :=
        { output_type := "execute_result",
          data := .str accumulatedText,
          execution_count := some choice.index,
          metadata := .obj ([("finish_reason", choice.finish_reason),
            ("logprobs", choice.logprobs)] ++ chunk.extra) }
      { completions := natMapSet st.completions choice.index accumulatedText,
        outputs := natMapSet st.outputs choice.index output,
        callbackLog := st.callbackLog
          ++ [(choice.text, accumulatedText, choice.index)] })
    st

/-- The whole streaming fold of `OpenAIModelParser.run` over the arrived
fragments (the provider transport is external; the fragments are its
output).  `prompt.outputs` becomes `natMapValues` of the final outputs
map. -/
def runTextStream (chunks : List CompletionChunk) : TextStreamState :=
  chunks.foldl runTextStreamStep
    { completions := [], outputs := [], callbackLog := [] }

/-- `buildOutputData` from `src/lib/parsers/openai.ts` (lines 910–932):
a message's non-nullish content, else its function call wrapped as a
`tool_calls` payload, else nothing. -/
def buildOutputData (message : JSValue) : Option JSValue :=
  if isNullish message then none
  else if !isNullish (jget message "content") then some (jget message "content")
  else if !isNullish (jget message "function_call") then
    some (.obj [("kind", .str "tool_calls"),
      ("value", .arr [.obj [("type", .str "function"),
        ("function", jget message "function_call")]])])
  else none

/-- The transient state of the streaming branch of
`OpenAIChatModelParser.run`: the reducer's per-choice message map, the
per-choice outputs, and the recorded `streamCallback(delta, accumulated
message, index)` invocations. -/
structure ChatStreamState where
  messages : Option (List (Nat × JSValue)) := none
  outputs : List (Nat × Output) := []
  callbackLog : List (JSValue × Option JSValue × Nat) := []
deriving Repr

/-- One fragment of the streaming branch of `OpenAIChatModelParser.run`
(lines 613–649): fold the chunk through `multiChoiceMessageReducer`
(propagating its protocol error), then per choice fire the callback with
the delta and the merged message and record an output built from the
merged message when one can be built. -/
def chatRunStreamStep (st : ChatStreamState) (chunk : ChatCompletionChunk) :
    Except String ChatStreamState :=
  match multiChoiceMessageReducer st.messages chunk with
  | .error e => .error e
  | .ok messages =>
    .ok (chunk.choices.foldl
      (fun st2 choice =>
        let message := natMapGet messages choice.index
        let log := st2.callbackLog ++ [(choice.delta, message, choice.index)]
        match message with
        | none => { st2 with callbackLog := log }
        | some m =>
          match buildOutputData m with
          | none => { st2 with callbackLog := log }
          | some outputData =>
            { st2 with
              callbackLog := log,
              outputs := natMapSet st2.outputs choice.index
                { output_type := "execute_result",
                  data := outputData,
                  execution_count := some choice.index,
                  metadata := .obj [("finish_reason", choice.finish_reason),
                    ("raw_response", m)] } })
      { st with messages := some messages })

/-- The whole streaming fold of `OpenAIChatModelParser.run` over the
arrived fragments. -/
def chatRunStream (chunks : List ChatCompletionChunk) :
    Except String ChatStreamState :=
  chunks.foldlM chatRunStreamStep {}

/-- One iteration of the HuggingFace text-generation stream:
`iteration.token.text` plus the iteration object itself, which
`constructStreamOutput` records verbatim as the output metadata. -/
structure HFStreamIteration where
  token_text : String
  meta : JSValue := .obj []
deriving Repr

/-- `constructStreamOutput` from the HuggingFace parser (lines 275–300):
accumulates the message only for the stream callback; the output record
rebuilt on every iteration stores `newText` — the latest fragment — as its
data (the source's own TODO questions this), so the returned output keeps
only the final fragment.  The initial `{} as ExecuteResult` is the empty
record returned for an empty stream. -/
def constructStreamOutput (response : List HFStreamIteration) :
    Output × List (String × String × Nat) :=
  let initOutput : Output :=
    { output_type := "", data := .undefined, execution_count := none,
      metadata := .undefined }
  let final := response.foldl
    (fun (st : String × Output × List (String × String × Nat)) iteration =>
      let newText := iteration.token_text
      let accumulatedMessage := st.1 ++ newText
      let output : Output :=
        { output_type := "execute_result",
          data := .str newText,
          execution_count := some 0,
          metadata := iteration.meta }
      (accumulatedMessage, output,
        st.2.2 ++ [(newText, accumulatedMessage, 0)]))
    ("", initOutput, [])
  (final.2.1, final.2.2)

/-- `HuggingFaceTextGenerationParser.getOutputText` (lines 229–266): like
the OpenAI projection but with a legacy `generated_text` fallback instead
of the raw-message one. -/
def hfGetOutputText (output : Option Output) (prompt : Option Prompt) :
    String :=
  let output :=
    match output, prompt with
    | none, some p => getLatestOutput p
    | o, _ => o
  match output with
  | none => ""
  | some o =>
    if o.output_type == "execute_result" then
      match o.data with
      | .str s => s
      | d =>
        if hasProp d "value" then
          match jget d "value" with
          | .str s => s
          | v => jsonStringify v
        else if hasProp d "generated_text" then
          match jget d "generated_text" with
          | .str s => s
          | _ => ""
        else ""
    else ""

/-- `OpenAIModelParser.run`, line 169: `options?.stream ??
completionParams.stream ?? true` — `??` skips only nullish values, so an
explicit `false` is respected. -/
def decideStreamCompletion (optionsStream paramsStream : Option Bool) :
    Bool :=
  optionsStream.getD (paramsStream.getD true)

/-- `OpenAIChatModelParser.run`, line 561: the identical decision. -/
def decideStreamChat (optionsStream paramsStream : Option Bool) : Bool :=
  optionsStream.getD (paramsStream.getD true)

/-- The inference options the HuggingFace run consults. -/
structure HFOptions where
  stream : Option Bool := none
deriving Repr

/-- `HuggingFaceTextGenerationParser.run`, line 201:
`options ? (options.stream ? options.stream : true) : false`.  With
options present, a truthy `options.stream` yields itself (`true`) and
anything else yields `true`, so both branches stream; without options the
run never streams. -/
def decideStreamHF (options : Option HFOptions) : Bool :=
  match options with
  | none => false
  | some o => if o.stream == some true then true else true

/-- The observable behavior of one notification listener on one event,
with real time abstracted into a three-way outcome: it fulfills before its
timeout, rejects on its own before it, or is still pending when the
timeout elapses. -/
inductive CallbackOutcome where
  | resolves : JSValue → CallbackOutcome
  | rejects : String → CallbackOutcome
  | pendingAtTimeout : CallbackOutcome
deriving Repr

/-- `withTimeout` from `src/lib/callback.ts` (lines 16–31): races the
listener's promise against a timer that rejects with `Timeout`; a listener
still pending when the timer fires loses the race. -/
def withTimeout : CallbackOutcome → Except String JSValue
  | .resolves v => .ok v
  | .rejects e => .error e
  | .pendingAtTimeout => .error "Timeout"

/-- `Promise.all`: fulfills with every result, or rejects as soon as any
task rejects. -/
def promiseAll {α : Type} : List (Except String α) → Except String (List α)
  | [] => .ok []
  | x :: rest =>
    match x with
    | .error e => .error e
    | .ok v =>
      match promiseAll rest with
      | .error e => .error e
      | .ok vs => .ok (v :: vs)

/-- `CallbackManager.runCallbacks` (lines 47–57): every callback is wrapped
in `withTimeout` and the tasks are aggregated with `Promise.all`, whose
rejection becomes the rejection of `runCallbacks` itself. -/
def runCallbacks (callbacks : List CallbackOutcome) :
    Except String (List JSValue) :=
  promiseAll (callbacks.map withTimeout)

/-- The prologue of `OpenAIChatModelParser.run` (lines 541–550): the
`on_run_start` dispatch is awaited, so its rejection aborts the run before
any provider work; `k` stands for the rest of the run body. -/
def chatRunWithCallbacks {α : Type} (callbacks : List CallbackOutcome)
    (k : Unit → Except String α) : Except String α :=
  match runCallbacks callbacks with
  | .error e => .error e
  | .ok _ => k ()

/-- `omit` from `src/lib/utils.ts` (lines 49–64) applied to a JS value
(`omit` is reserved in Lean, hence the longer name): the own entries whose
keys are not omitted. -/
def omitKeys (v : JSValue) (keysToOmit : List String) :
    List (String × JSValue) :=
  match v with
  | .obj fs => fs.filter (fun p => !keysToOmit.contains p.1)
  | _ => []

/-- `message.content ?? ""` where a string is expected. -/
def contentOrEmpty (m : JSValue) : String :=
  match jget m "content" with
  | .str s => s
  | _ => ""

/-- The prompt-building loop of `OpenAIChatModelParser.serialize`
(lines 383–431): every user or function message becomes a Prompt (named
`promptName_i`), pairing it with the immediately following assistant
message as a recorded output when there is one. -/
def serializeLoop (promptName : String) (modelMetadata params : JSValue) :
    List JSValue → List Prompt → List Prompt
  | [], prompts => prompts
  | m :: rest, prompts =>
    if strictEq (jget m "role") (.str "user")
        || strictEq (jget m "role") (.str "function") then
      let assistantResponse : Option JSValue :=
        match rest.head? with
        | some nextMessage =>
          if strictEq (jget nextMessage "role") (.str "assistant") then
            some nextMessage
          else none
        | none => none
      let input : PromptInput :=
        if strictEq (jget m "role") (.str "user") then
          .text (contentOrEmpty m)
        else .jobj m
      let outputs : List Output :=
        match assistantResponse with
        | none => []
        | some ar =>
          match buildOutputData ar with
          | none => []
          | some dataV =>
            [{ output_type := "execute_result", data := dataV,
               metadata := .obj ([("raw_response", ar)]
                 ++ omitKeys ar ["content", "function_call"]) }]
      let prompt : Prompt :=
        { name := promptName ++ "_" ++ toString (prompts.length + 1),
          input := input,
          rememberChatContext := some true,
          modelMetadata := modelMetadata,
          parameters := params,
          outputs := outputs }
      serializeLoop promptName modelMetadata params rest (prompts ++ [prompt])
    else serializeLoop promptName modelMetadata params rest prompts

/-- Renaming of the last built prompt to the requested name. -/
def renameLast (prompts : List Prompt) (name : String) : List Prompt :=
  match prompts with
  | [] => []
  | [p] => [{ p with name := name }]
  | p :: rest => p :: renameLast rest name

/-- The prompt-construction part of `OpenAIChatModelParser.serialize`
(lines 383–434): build one prompt per user/function message, then rename
the last one — `prompts[prompts.length - 1]!.name = promptName`
unconditionally dereferences the last element, so an empty list makes
serialize throw a TypeError before returning (modelled as `none`). -/
def serializeChatPrompts (promptName : String)
    (modelMetadata params : JSValue) (messages : List JSValue) :
    Option (List Prompt) :=
  let prompts := serializeLoop promptName modelMetadata params messages []
  match prompts with
  | [] => none
  | _ => some (renameLast prompts promptName)

/-- A listener that fulfills before its timeout. -/
def resolvesB : CallbackOutcome → Bool
  | .resolves _ => true
  | _ => false

/-- A listener still pending when its timeout elapses. -/
def pendingB : CallbackOutcome → Bool
  | .pendingAtTimeout => true
  | _ => false

theorem runCallbacks_isOk (callbacks : List CallbackOutcome) :
    (runCallbacks callbacks).isOk = callbacks.all resolvesB := by
  unfold runCallbacks
  induction callbacks with
  | nil => simp [promiseAll, Except.isOk, Except.toBool]
  | cons c rest ih =>
    simp only [List.map_cons, promiseAll, List.all_cons]
    cases c with
    | resolves v =>
      simp only [withTimeout, resolvesB, Bool.true_and]
      rw [← ih]
      cases promiseAll (rest.map withTimeout) <;>
        simp [Except.isOk, Except.toBool]
    | rejects e => simp [withTimeout, resolvesB, Except.isOk, Except.toBool]
    | pendingAtTimeout =>
      simp [withTimeout, resolvesB, Except.isOk, Except.toBool]

theorem runCallbacks_error_of_pending {callbacks : List CallbackOutcome}
    (h : callbacks.any pendingB = true) :
    (runCallbacks callbacks).isOk = false := by
  rw [runCallbacks_isOk]
  simp only [List.any_eq_true] at h
  obtain ⟨c, hc, hp⟩ := h
  cases hall : callbacks.all resolvesB
  · rfl
  · exfalso
    rw [List.all_eq_true] at hall
    have := hall c hc
    cases c <;> simp [pendingB] at hp <;> simp [resolvesB] at this

theorem addPromptAsMessage_append (resolver : TemplateResolver)
    (prompt : Prompt) (messages : List JSValue) :
    addPromptAsMessage resolver prompt messages
      = messages ++ addPromptAsMessage resolver prompt [] := by
  unfold addPromptAsMessage
  cases hout : getLatestOutput prompt with
  | none => simp
  | some output =>
    by_cases h1 : output.output_type == "execute_result"
    · simp only [h1]
      by_cases h2 : (if isNullish (jget output.metadata "role") then
          strictEq (jget (jget output.metadata "raw_response") "role")
            (.str "assistant")
        else truthy (jget output.metadata "role")) = true
      · simp [h2, List.append_assoc]
      · simp only [h2]
        by_cases h3 : (hasProp output.data "content"
            && hasProp output.data "role") = true
        · simp only [h3]
          by_cases h4 : strictEq (jget output.data "role")
              (.str "assistant") = true
          · simp [h4, List.append_assoc]
          · simp [h4]
        · simp [h3]
    · simp [h1]

theorem buildChatHistory_takeThrough (resolver : TemplateResolver)
    (target : Prompt) :
    ∀ (prompts : List Prompt) (messages : List JSValue),
      buildChatHistory resolver prompts target messages
        = buildChatHistory resolver (takeThroughName prompts target.name)
            target messages := by
  intro prompts
  induction prompts with
  | nil => intro messages; simp [takeThroughName]
  | cons p rest ih =>
    intro messages
    simp only [buildChatHistory, takeThroughName]
    by_cases hn : p.name == target.name
    · simp [buildChatHistory, hn]
    · simp only [hn, Bool.false_eq_true, if_false, buildChatHistory]
      exact ih _

theorem serializeLoop_skips (promptName : String)
    (modelMetadata params : JSValue) :
    ∀ (messages : List JSValue) (acc : List Prompt),
      (messages.all (fun m => !(strictEq (jget m "role") (.str "user")
        || strictEq (jget m "role") (.str "function")))) = true →
      serializeLoop promptName modelMetadata params messages acc = acc := by
  intro messages
  induction messages with
  | nil => intro acc h; simp [serializeLoop]
  | cons m rest ih =>
    intro acc h
    simp only [List.all_cons, Bool.and_eq_true, Bool.not_eq_true',
      Bool.or_eq_false_iff] at h
    simp only [serializeLoop, h.1.1, h.1.2, Bool.or_self, Bool.false_eq_true,
      if_false]
    exact ih acc (by simp only [List.all_eq_true] at h ⊢; exact h.2)

theorem objKeys_not_mem_of_all_ne {rest : List (String × JSValue)}
    {k0 : String} (h : ∀ p ∈ rest, (p.1 != k0) = true) :
    k0 ∉ objKeys rest := by
  intro hmem
  obtain ⟨p, hp, hpk⟩ := List.mem_map.mp hmem
  have := h p hp
  rw [hpk] at this
  simp at this

theorem reduceGo_lookup (accOrig : JSValue) :
    ∀ (es : List (String × JSValue)) (a : List (String × JSValue))
      (k : String), distinctKeys es = true →
      lookupField (reduceGo accOrig a es) k =
        match lookupField es k with
        | none => lookupField a k
        | some v =>
          match lookupField (jsEntries accOrig) k with
          | none => some v
          | some .undefined => some v
          | some .null => some v
          | some (.str s) =>
            match v with
            | .str t => some (.str (s ++ t))
            | _ => lookupField a k
          | some (.obj fs) => some (reduce (.obj fs) v)
          | some _ => lookupField a k := by
  intro es
  induction es with
  | nil => intro a k hd; simp [reduceGo, lookupField]
  | cons e rest ih =>
    intro a k hd
    obtain ⟨k0, v0⟩ := e
    simp only [distinctKeys, Bool.and_eq_true, List.all_eq_true] at hd
    conv_lhs => rw [reduceGo]
    by_cases hk : k = k0
    · subst hk
      have hnone : lookupField rest k = none :=
        lookupField_eq_none (objKeys_not_mem_of_all_ne hd.1)
      have hcons : lookupField ((k, v0) :: rest) k = some v0 := by
        simp [lookupField]
      cases hacc : lookupField (jsEntries accOrig) k with
      | none =>
        simp only [hacc]
        rw [ih _ k hd.2]
        simp [hnone, hcons, hacc, lookupField_setField_self]
      | some w =>
        cases w with
        | undefined =>
          simp only [hacc]
          rw [ih _ k hd.2]
          simp [hnone, hcons, hacc, lookupField_setField_self]
        | null =>
          simp only [hacc]
          rw [ih _ k hd.2]
          simp [hnone, hcons, hacc, lookupField_setField_self]
        | str s =>
          cases v0 <;>
            (simp only [hacc]
             rw [ih _ k hd.2]
             simp [hnone, hcons, hacc, lookupField_setField_self])
        | obj fs =>
          simp only [hacc]
          rw [ih _ k hd.2]
          simp [hnone, hcons, hacc, lookupField_setField_self]
        | bool b =>
          simp only [hacc]
          rw [ih _ k hd.2]
          simp [hnone, hcons, hacc]
        | num nn =>
          simp only [hacc]
          rw [ih _ k hd.2]
          simp [hnone, hcons, hacc]
        | arr vs =>
          simp only [hacc]
          rw [ih _ k hd.2]
          simp [hnone, hcons, hacc]
    · have hk0beq : (k0 == k) = false := by
        simp
        exact fun hh => hk hh.symm
      have hcons : lookupField ((k0, v0) :: rest) k = lookupField rest k := by
        simp [lookupField, hk0beq]
      cases hacc : lookupField (jsEntries accOrig) k0 with
      | none =>
        simp only [hacc]
        rw [ih _ k hd.2, hcons, lookupField_setField_other a k0 k v0 hk]
      | some w =>
        cases w with
        | undefined =>
          simp only [hacc]
          rw [ih _ k hd.2, hcons, lookupField_setField_other a k0 k v0 hk]
        | null =>
          simp only [hacc]
          rw [ih _ k hd.2, hcons, lookupField_setField_other a k0 k v0 hk]
        | str s =>
          cases v0 <;>
            (simp only [hacc]
             rw [ih _ k hd.2, hcons]
             try rw [lookupField_setField_other a k0 k _ hk])
        | obj fs =>
          simp only [hacc]
          rw [ih _ k hd.2, hcons, lookupField_setField_other a k0 k _ hk]
        | bool b =>
          simp only [hacc]
          rw [ih _ k hd.2, hcons]
        | num nn =>
          simp only [hacc]
          rw [ih _ k hd.2, hcons]
        | arr vs =>
          simp only [hacc]
          rw [ih _ k hd.2, hcons]

/-- C1 (corrected): the field-level rules the streaming merge actually
implements.  For each delta entry: a nullish or missing accumulator field
adopts the incoming value; two strings concatenate; a non-array mapping on
the accumulator side is merged recursively whatever the incoming type; and
every other type combination KEEPS the accumulator's value — the incoming
value is dropped, not adopted as the claim stated.  Fields the delta does
not mention are copied unchanged. -/
theorem reduce_field_level_rules (acc delta : List (String × JSValue))
    (hdelta : distinctKeys delta = true) (k : String) :
    jget (reduce (.obj acc) (.obj delta)) k =
      match lookupField delta k with
      | none => getProp acc k
      | some v =>
        match lookupField acc k with
        | none => v
        | some .undefined => v
        | some .null => v
        | some (.str s) =>
          match v with
          | .str t => .str (s ++ t)
          | _ => .str s
        | some (.obj fs) => reduce (.obj fs) v
        | some av => av := by
  have h := reduceGo_lookup (.obj acc) delta acc k hdelta
  rw [show reduce (.obj acc) (.obj delta)
      = .obj (reduceGo (.obj acc) acc delta) from by rw [reduce]; rfl]
  simp only [jget]
  rw [h]
  have hje : lookupField (jsEntries (JSValue.obj acc)) k
      = lookupField acc k := rfl
  cases hd : lookupField delta k with
  | none => simp [getProp]
  | some v =>
    rw [hje]
    cases ha : lookupField acc k with
    | none => simp
    | some w =>
      cases w with
      | undefined => simp
      | null => simp
      | str s => cases v <;> simp
      | obj fs => simp
      | bool b => simp
      | num nn => simp
      | arr vs => simp

/-- C1 witness: the rules evaluated at a one-field accumulator and delta. -/
theorem reduce_field_level_rules_witness :
    distinctKeys [("x", JSValue.num 2)] = true
    ∧ jget (reduce (.obj [("x", JSValue.num 1)])
          (.obj [("x", JSValue.num 2)])) "x"
        = match lookupField [("x", JSValue.num 2)] "x" with
          | none => getProp [("x", JSValue.num 1)] "x"
          | some v =>
            match lookupField [("x", JSValue.num 1)] "x" with
            | none => v
            | some .undefined => v
            | some .null => v
            | some (.str s) =>
              match v with
              | .str t => .str (s ++ t)
              | _ => .str s
            | some (.obj fs) => reduce (.obj fs) v
            | some av => av :=
  ⟨rfl, reduce_field_level_rules [("x", JSValue.num 1)]
    [("x", JSValue.num 2)] rfl "x"⟩

/-- C1 counterexample: both sides numbers — the claim says the incoming
value overwrites, but the merge keeps the accumulator's `1`. -/
theorem reduce_overwrite_refuted :
    reduce (.obj [("x", JSValue.num 1)]) (.obj [("x", JSValue.num 2)])
      = .obj [("x", JSValue.num 1)]
    ∧ reduce (.obj [("x", JSValue.num 1)]) (.obj [("x", JSValue.num 2)])
      ≠ .obj [("x", JSValue.num 2)] := by
  constructor
  · simp [reduce, reduceGo, jsEntries, lookupField, setField]
  · simp [reduce, reduceGo, jsEntries, lookupField, setField]

/-- C2 (corrected): `isEqual` returns true whenever the spec's deep
structural equality holds — but not only then (see the counterexample):
the implication cannot be strengthened to the claimed equivalence. -/
theorem isEqual_sound_for_deepEqual (x y : JSValue)
    (hwx : wfJS x = true) (hwy : wfJS y = true)
    (hde : deepEqualSpec x y = true) : isEqual x y = true :=
  deepEqual_implies_isEqual hwx hwy hde

/-- C2 witness: two structurally equal one-field mappings. -/
theorem isEqual_sound_for_deepEqual_witness :
    wfJS (.obj [("a", JSValue.num 1)]) = true
    ∧ deepEqualSpec (.obj [("a", JSValue.num 1)])
        (.obj [("a", JSValue.num 1)]) = true
    ∧ isEqual (.obj [("a", JSValue.num 1)])
        (.obj [("a", JSValue.num 1)]) = true := by
  refine ⟨?_, ?_, ?_⟩
  · simp [wfJS, wfJSFields, distinctKeys]
  · simp [deepEqualSpec, deepEqualFieldsL, lookupField, strictEq]
  · exact isEqual_sound_for_deepEqual _ _
      (by simp [wfJS, wfJSFields, distinctKeys])
      (by simp [wfJS, wfJSFields, distinctKeys])
      (by simp [deepEqualSpec, deepEqualFieldsL, lookupField, strictEq])

/-- C2 counterexample: `{a: 0}` and `{a: ""}` — the object loop of
`isEqual` skips keys whose values are falsy on both sides, so the two
mappings compare equal although the spec's deep equality distinguishes
them. -/
theorem isEqual_not_deepEqual :
    isEqual (.obj [("a", JSValue.num 0)]) (.obj [("a", JSValue.str "")])
      = true
    ∧ deepEqualSpec (.obj [("a", JSValue.num 0)])
        (.obj [("a", JSValue.str "")]) = false := by
  constructor
  · simp [isEqual, isEqualFields, strictEq, truthy, isNullish,
      constructorName, lookupField]
  · simp [deepEqualSpec, deepEqualFieldsL, lookupField, strictEq]

/-- C3 (corrected): with the code's `isEqual` in place of the spec's deep
equality, the settings diff is exactly as claimed — every key of either
object at which `isEqual` fails, mapped to the requested value (`undefined`
when absent there) — and layering it over the globals reproduces the
requested settings up to `isEqual` at every key of either side.  The
spec-equality version of the claim is refuted separately. -/
theorem extractOverrideSettings_minimal_diff
    (g s : List (String × JSValue)) (k : String)
    (hwg : wfJS (.obj g) = true) (hws : wfJS (.obj s) = true) :
    lookupField (extractOverrideSettings (some g) (some s)) k
      = (if k ∈ union (objKeys g) (objKeys s)
            ∧ isEqual (getProp g k) (getProp s k) = false
         then some (getProp s k) else none)
    ∧ objKeys (extractOverrideSettings (some g) (some s))
      = (union (objKeys g) (objKeys s)).filter
          (fun k2 => !isEqual (getProp g k2) (getProp s k2))
    ∧ (k ∈ union (objKeys g) (objKeys s) →
        isEqual (getProp (spreadMerge g
            (extractOverrideSettings (some g) (some s))) k)
          (getProp s k) = true) := by
  have hext : extractOverrideSettings (some g) (some s)
      = (union (objKeys g) (objKeys s)).foldl (overrideStep g s) [] := rfl
  have hfold := lookupField_overrideFold g s k
    (union (objKeys g) (objKeys s)) []
  have hkeys : objKeys (extractOverrideSettings (some g) (some s))
      = (union (objKeys g) (objKeys s)).filter
          (fun k2 => !isEqual (getProp g k2) (getProp s k2)) := by
    rw [hext, objKeys_overrideFold g s _ [] (union_nodup _ _)
      (by intro k2 h2; simp [objKeys])]
    simp [objKeys]
  have hnd : (objKeys (extractOverrideSettings (some g) (some s))).Nodup := by
    rw [hkeys]
    exact (union_nodup _ _).filter _
  refine ⟨?_, hkeys, ?_⟩
  · rw [hext, hfold]
    simp [lookupField]
  · intro hmem
    have hmerge := lookupField_spreadMerge
      (extractOverrideSettings (some g) (some s)) g k hnd
    by_cases hc : isEqual (getProp g k) (getProp s k) = false
    · have hsome : lookupField (extractOverrideSettings (some g) (some s)) k
          = some (getProp s k) := by
        rw [hext, hfold]; simp [hmem, hc]
      rw [show getProp (spreadMerge g
          (extractOverrideSettings (some g) (some s))) k = getProp s k from by
        unfold getProp
        rw [hmerge, hsome]
        simp [getProp]]
      exact isEqual_refl (wfJS_getProp k hws)
    · have ht : isEqual (getProp g k) (getProp s k) = true :=
        eq_true_of_ne_false hc
      have hnone : lookupField (extractOverrideSettings (some g) (some s)) k
          = none := by
        rw [hext, hfold]; simp [hc, lookupField]
      rw [show getProp (spreadMerge g
          (extractOverrideSettings (some g) (some s))) k = getProp g k from by
        unfold getProp
        rw [hmerge, hnone]
        simp]
      exact ht

/-- C3 witness: one-key globals and request with differing values. -/
theorem extractOverrideSettings_minimal_diff_witness :
    wfJS (.obj [("a", JSValue.num 1)]) = true
    ∧ wfJS (.obj [("a", JSValue.num 2)]) = true
    ∧ lookupField (extractOverrideSettings (some [("a", JSValue.num 1)])
        (some [("a", JSValue.num 2)])) "a" = some (JSValue.num 2)
    ∧ objKeys (extractOverrideSettings (some [("a", JSValue.num 1)])
        (some [("a", JSValue.num 2)])) = ["a"]
    ∧ isEqual (getProp (spreadMerge [("a", JSValue.num 1)]
        (extractOverrideSettings (some [("a", JSValue.num 1)])
          (some [("a", JSValue.num 2)]))) "a")
        (getProp [("a", JSValue.num 2)] "a") = true := by
  have hw1 : wfJS (.obj [("a", JSValue.num 1)]) = true := by
    simp [wfJS, wfJSFields, distinctKeys]
  have hw2 : wfJS (.obj [("a", JSValue.num 2)]) = true := by
    simp [wfJS, wfJSFields, distinctKeys]
  have h := extractOverrideSettings_minimal_diff [("a", JSValue.num 1)]
    [("a", JSValue.num 2)] "a" hw1 hw2
  refine ⟨hw1, hw2, ?_, ?_, ?_⟩
  · rw [h.1]
    simp [union, addToSet, objKeys, getProp, lookupField, isEqual, strictEq]
  · rw [h.2.1]
    simp [union, addToSet, objKeys, getProp, lookupField, isEqual, strictEq]
  · exact h.2.2 (by simp [union, addToSet, objKeys])

/-- C3 counterexample: nested mappings differing only at a key with falsy
values on both sides.  The spec's deep equality distinguishes
`G.s = {a: 0}` from `R.s = {a: ""}`, so the claim requires key `"s"` in
the diff — but `isEqual` calls them equal and the computed diff is empty
(so layering it over `G` cannot reproduce `R` either). -/
theorem extractOverrideSettings_deepEqual_refuted :
    extractOverrideSettings
        (some [("s", JSValue.obj [("a", JSValue.num 0)])])
        (some [("s", JSValue.obj [("a", JSValue.str "")])]) = []
    ∧ deepEqualSpec (JSValue.obj [("a", JSValue.num 0)])
        (JSValue.obj [("a", JSValue.str "")]) = false := by
  constructor
  · simp [extractOverrideSettings, union, addToSet, objKeys, overrideStep,
      getProp, lookupField, isEqual, isEqualFields, strictEq, truthy,
      isNullish, constructorName]
  · simp [deepEqualSpec, deepEqualFieldsL, lookupField, strictEq]

/-- C4 (confirmed): once the accumulator is non-empty, folding a fragment
succeeds exactly when its choice count equals the accumulator's size, and
raises the protocol error exactly on a mismatch; the first fragment starts
from an empty map and never raises. -/
theorem multiChoiceMessageReducer_choice_count :
    (∀ (m : List (Nat × JSValue)) (chunk : ChatCompletionChunk),
      0 < m.length →
      (multiChoiceMessageReducer (some m) chunk).isOk
        = (m.length == chunk.choices.length))
    ∧ ∀ (chunk : ChatCompletionChunk),
      (multiChoiceMessageReducer none chunk).isOk = true := by
  constructor
  · intro m chunk hpos
    by_cases h : m.length = chunk.choices.length
    · simp [multiChoiceMessageReducer, h, Except.isOk, Except.toBool]
    · simp [multiChoiceMessageReducer, h, Except.isOk, Except.toBool]
  · intro chunk
    simp [multiChoiceMessageReducer, Except.isOk, Except.toBool]

/-- C4 witness: a one-choice accumulator meeting an empty fragment raises;
applying the theorem also covers the matching case. -/
theorem multiChoiceMessageReducer_choice_count_witness :
    0 < [((0 : Nat), JSValue.obj [])].length
    ∧ (multiChoiceMessageReducer (some [((0 : Nat), JSValue.obj [])])
        { choices := [] }).isOk = false := by
  constructor
  · decide
  · have := multiChoiceMessageReducer_choice_count.1
      [((0 : Nat), JSValue.obj [])] { choices := [] } (by decide)
    simpa using this

/-- C5 (confirmed): the chat history built while deserializing a target
prompt only depends on the document's prompts up to and including the
first one named like the target — the walk stops there, so no message
derives from a later prompt. -/
theorem deserializeMessages_history_boundary (resolver : TemplateResolver)
    (modelMetadata : JSValue) (prompts : List Prompt) (target : Prompt) :
    deserializeMessages resolver modelMetadata prompts target
      = deserializeMessages resolver modelMetadata
          (takeThroughName prompts target.name) target := by
  unfold deserializeMessages
  by_cases h : target.rememberChatContext != some false
  · simp only [h]
    exact buildChatHistory_takeThrough resolver target prompts _
  · simp only [h]
    simp

/-- The identity template resolver, for the concrete scenarios. -/
def identityResolver : TemplateResolver := fun s _ => s

/-- A recorded assistant output, as the chat parser writes one. -/
def recordedAssistantOutput : Output :=
  { output_type := "execute_result", data := .str "Hello",
    metadata := .obj [("role", .str "assistant")] }

/-- A target prompt that opts out of chat context and carries a recorded
assistant output. -/
def skipHistoryTarget : Prompt :=
  { name := "t", input := .text "Hi", rememberChatContext := some false,
    outputs := [recordedAssistantOutput] }

/-- C6 (corrected): with `rememberContext = false` the built history is
independent of the document's other prompts and consists of the system
turn (when one is declared) followed by the target prompt's own turns —
its user turn plus, when the target has a recorded assistant-attributable
output, an assistant turn derived from that output.  The claim's "a single
user turn" fails exactly on that assistant turn (see the
counterexample). -/
theorem deserializeMessages_skip_history (resolver : TemplateResolver)
    (modelMetadata : JSValue) (prompts prompts2 : List Prompt)
    (target : Prompt) (h : target.rememberChatContext = some false) :
    deserializeMessages resolver modelMetadata prompts target
      = deserializeMessages resolver modelMetadata prompts2 target
    ∧ deserializeMessages resolver modelMetadata prompts target
      = systemMessages resolver modelMetadata target
        ++ addPromptAsMessage resolver target [] := by
  unfold deserializeMessages
  simp only [h]
  constructor
  · simp
  · simp
    exact addPromptAsMessage_append resolver target _

/-- C6 witness: the skip-history target, against two different documents. -/
theorem deserializeMessages_skip_history_witness :
    skipHistoryTarget.rememberChatContext = some false
    ∧ deserializeMessages identityResolver (.obj []) [skipHistoryTarget]
        skipHistoryTarget
      = deserializeMessages identityResolver (.obj []) [] skipHistoryTarget
    ∧ deserializeMessages identityResolver (.obj []) [skipHistoryTarget]
        skipHistoryTarget
      = systemMessages identityResolver (.obj []) skipHistoryTarget
        ++ addPromptAsMessage identityResolver skipHistoryTarget [] := by
  have h := deserializeMessages_skip_history identityResolver (.obj [])
    [skipHistoryTarget] [] skipHistoryTarget rfl
  exact ⟨rfl, h.1, h.2⟩

/-- C6 counterexample: the history built for the skip-history target is a
user turn AND an assistant turn from the target's own recorded output —
not "only the target prompt emitted as a single user turn". -/
theorem deserializeMessages_skip_history_not_single_turn :
    deserializeMessages identityResolver (.obj []) [skipHistoryTarget]
        skipHistoryTarget
      = [.obj [("content", JSValue.str "Hi"), ("role", JSValue.str "user")],
         .obj [("content", JSValue.str "Hello"),
           ("role", JSValue.str "assistant")]] := by
  simp [deserializeMessages, systemMessages, addPromptAsMessage,
    skipHistoryTarget, identityResolver, recordedAssistantOutput,
    getLatestOutput, getPromptTemplate, assistantMessageFromOutput, jget,
    lookupField, isNullish, truthy, strictEq, hasProp, jlastElem]

/-- The scenario's fragments for the text-completion parser. -/
def helloTextChunks : List CompletionChunk :=
  [{ choices := [{ index := 0, text := "Hel" }] },
   { choices := [{ index := 0, text := "lo" }] }]

/-- The scenario's fragments for the chat parser. -/
def helloChatChunks : List ChatCompletionChunk :=
  [{ choices := [{ index := 0, delta := .obj [("content", .str "Hel")] }] },
   { choices := [{ index := 0, delta := .obj [("content", .str "lo")] }] }]

/-- The scenario's fragments for the HuggingFace parser. -/
def helloHFIterations : List HFStreamIteration :=
  [{ token_text := "Hel" }, { token_text := "lo" }]

/-- The final state of the chat streaming fold on the scenario's
fragments. -/
theorem chatRunStream_hello :
    chatRunStream helloChatChunks = Except.ok
      { messages := some [(0, JSValue.obj [("content", JSValue.str "Hello")])],
        outputs := [((0 : Nat),
          { output_type := "execute_result",
            data := JSValue.str "Hello",
            execution_count := some 0,
            metadata := JSValue.obj
              [("finish_reason", JSValue.null),
               ("raw_response",
                 JSValue.obj [("content", JSValue.str "Hello")])] })],
        callbackLog := [(JSValue.obj [("content", JSValue.str "Hel")],
            some (JSValue.obj [("content", JSValue.str "Hel")]), 0),
          (JSValue.obj [("content", JSValue.str "lo")],
            some (JSValue.obj [("content", JSValue.str "Hello")]), 0)] } := by
  have h1 : reduce (.arr []) (.obj [("content", .str "Hel")])
      = .obj [("content", .str "Hel")] := by
    simp [reduce, reduceGo, jsEntries, lookupField, setField]
  have h2 : reduce (.obj [("content", .str "Hel")])
        (.obj [("content", .str "lo")])
      = .obj [("content", .str "Hello")] := by
    simp [reduce, reduceGo, jsEntries, lookupField, setField]
  simp [helloChatChunks, chatRunStream, List.foldlM, chatRunStreamStep,
    multiChoiceMessageReducer, applyChoices, h1, h2, natMapGet, natMapSet,
    buildOutputData, jget, lookupField, isNullish, bind, Except.bind,
    pure, Except.pure]

/-- C7 (corrected): on the fragments "Hel", "lo" for choice 0 the
text-completion run fires the stream callback twice, with accumulations
"Hel" then "Hello", and records one output whose projected text is
"Hello"; the chat run accumulates messages whose content is "Hel" then
"Hello" and records "Hello"; the HuggingFace run also fires the callback
with "Hel", "Hello" — but its recorded output keeps only the final
fragment, so its projected text is "lo", not "Hello" (the unamended claim
fails there; see the counterexample). -/
theorem streaming_hello_scenario :
    (runTextStream helloTextChunks).callbackLog
      = [("Hel", "Hel", 0), ("lo", "Hello", 0)]
    ∧ (natMapValues (runTextStream helloTextChunks).outputs).map
        (fun o => getOutputText (some o) none) = ["Hello"]
    ∧ (chatRunStream helloChatChunks).toOption.map
        (fun st => (natMapValues st.outputs).map
          (fun o => getOutputText (some o) none)) = some ["Hello"]
    ∧ (chatRunStream helloChatChunks).toOption.map
        (fun st => st.callbackLog.map (fun t => t.2.1))
      = some [some (.obj [("content", JSValue.str "Hel")]),
              some (.obj [("content", JSValue.str "Hello")])]
    ∧ (constructStreamOutput helloHFIterations).2
      = [("Hel", "Hel", 0), ("lo", "Hello", 0)]
    ∧ hfGetOutputText (some (constructStreamOutput helloHFIterations).1)
        none = "lo" := by
  refine ⟨?_, ?_, ?_, ?_, ?_, ?_⟩
  · simp [helloTextChunks, runTextStream, runTextStreamStep, natMapGet,
      natMapSet]
  · simp [helloTextChunks, runTextStream, runTextStreamStep, natMapGet,
      natMapSet, natMapValues, getOutputText]
  · rw [chatRunStream_hello]
    simp [natMapValues, getOutputText, Except.toOption]
  · rw [chatRunStream_hello]
    simp [Except.toOption]
  · simp [helloHFIterations, constructStreamOutput]
  · simp [helloHFIterations, constructStreamOutput, hfGetOutputText]

/-- C7 counterexample: for the HuggingFace variant the claim's final
recorded text is not "Hello": the stream callback accumulated "Hel" then
"Hello", yet the recorded Output projects to "lo" — the last fragment. -/
theorem hf_stream_output_not_accumulated :
    (constructStreamOutput helloHFIterations).2
      = [("Hel", "Hel", 0), ("lo", "Hello", 0)]
    ∧ hfGetOutputText (some (constructStreamOutput helloHFIterations).1)
        none = "lo"
    ∧ hfGetOutputText (some (constructStreamOutput helloHFIterations).1)
        none ≠ "Hello" := by
  refine ⟨?_, ?_, ?_⟩
  · simp [helloHFIterations, constructStreamOutput]
  · simp [helloHFIterations, constructStreamOutput, hfGetOutputText]
  · simp [helloHFIterations, constructStreamOutput, hfGetOutputText]

/-- C8 (corrected): the OpenAI text-completion and chat runs decide
streaming exactly as claimed — explicit option first (true or false),
then the request's own flag, then streaming-on.  The generic
text-generation (HuggingFace) run does not: it streams whenever options
are supplied — an explicit `stream: false` still streams — and never
streams without options (see the counterexample). -/
theorem stream_mode_decision (b : Bool) (r : Option Bool) (o : HFOptions) :
    decideStreamCompletion (some b) r = b
    ∧ decideStreamCompletion none (some b) = b
    ∧ decideStreamCompletion none none = true
    ∧ decideStreamChat (some b) r = b
    ∧ decideStreamChat none (some b) = b
    ∧ decideStreamChat none none = true
    ∧ decideStreamHF none = false
    ∧ decideStreamHF (some o) = true := by
  refine ⟨rfl, rfl, rfl, rfl, rfl, rfl, rfl, ?_⟩
  unfold decideStreamHF
  by_cases h : o.stream == some true <;> simp [h]

/-- C8 counterexample: an explicit `stream: false` option makes the
HuggingFace run stream anyway, so the decision is not made "first by the
explicit stream option when one is supplied (true or false)". -/
theorem hf_stream_option_false_ignored :
    decideStreamHF (some { stream := some false }) = true := rfl

/-- C9 (corrected): a listener still pending at its timeout makes its
task reject, and `runCallbacks` aggregates with `Promise.all`, so the
whole dispatch fulfills exactly when every listener settles in time and
rejects when any listener times out; since `run` awaits the dispatch, the
timeout aborts the run — it does propagate to the caller, contrary to the
claim (see the counterexample). -/
theorem notification_timeout_behavior {α : Type}
    (callbacks : List CallbackOutcome) (k : Unit → Except String α) :
    (runCallbacks callbacks).isOk = callbacks.all resolvesB
    ∧ (callbacks.any pendingB = true →
        (chatRunWithCallbacks callbacks k).isOk = false) := by
  constructor
  · exact runCallbacks_isOk callbacks
  · intro h
    have herr := runCallbacks_error_of_pending h
    unfold chatRunWithCallbacks
    cases hrc : runCallbacks callbacks with
    | error e => simp [Except.isOk, Except.toBool]
    | ok v => rw [hrc] at herr; simp [Except.isOk, Except.toBool] at herr

/-- C9 witness: one listener that times out aborts a run whose body would
have succeeded. -/
theorem notification_timeout_behavior_witness :
    [CallbackOutcome.pendingAtTimeout].any pendingB = true
    ∧ (chatRunWithCallbacks [CallbackOutcome.pendingAtTimeout]
        (fun _ => Except.ok (JSValue.num 0))).isOk = false := by
  constructor
  · rfl
  · exact (notification_timeout_behavior [CallbackOutcome.pendingAtTimeout]
      (fun _ => Except.ok (JSValue.num 0))).2 rfl

/-- C9 counterexample: the timed-out dispatch rejects and the awaited
`run` propagates that very error to its caller — refuting "a notification
timeout never propagates an error to the caller of run". -/
theorem notification_timeout_propagates :
    runCallbacks [CallbackOutcome.pendingAtTimeout]
      = Except.error "Timeout"
    ∧ chatRunWithCallbacks [CallbackOutcome.pendingAtTimeout]
        (fun _ => Except.ok (JSValue.num 0))
      = Except.error "Timeout" := ⟨rfl, rfl⟩

/-- C10 (confirmed): when no message has role "user" or "function", the
serialize loop builds no prompt, and the unconditional rename of the last
element of the empty list throws — serialize never returns normally. -/
theorem serialize_throws_without_user_messages (promptName : String)
    (modelMetadata params : JSValue) (messages : List JSValue)
    (h : (messages.all (fun m => !(strictEq (jget m "role") (.str "user")
      || strictEq (jget m "role") (.str "function")))) = true) :
    serializeChatPrompts promptName modelMetadata params messages = none := by
  unfold serializeChatPrompts
  rw [serializeLoop_skips promptName modelMetadata params messages [] h]

/-- C10 witness: a conversation holding only a system message. -/
theorem serialize_throws_without_user_messages_witness :
    ([JSValue.obj [("role", JSValue.str "system"),
        ("content", JSValue.str "be brief")]].all
      (fun m => !(strictEq (jget m "role") (.str "user")
        || strictEq (jget m "role") (.str "function")))) = true
    ∧ serializeChatPrompts "p" .undefined .undefined
        [JSValue.obj [("role", JSValue.str "system"),
          ("content", JSValue.str "be brief")]] = none := by
  constructor
  · rfl
  · exact serialize_throws_without_user_messages "p" .undefined .undefined _ rfl
